import Mathlib

/-!
Shallow embedding of the discord-stock-bot market-report pipeline
(src/main.py) and the news deduplication routine (src/news_bot.py).

Prices and percent changes are modelled as rationals.  The external
market-data provider is modelled as an oracle mapping an attempt index to
either a fetch error or a list of daily bars; a bar records its closing
price and whether the row is complete (a row with a missing value is
dropped by the dropna step).  The OpenAI call, the current date and the
webhook POST are likewise oracle parameters of the pipeline.
-/

namespace StockBot

/-- One daily bar of the provider history.  `complete = false` models a row
containing a missing value, which the dropna step removes. -/
structure Bar where
  close : ℚ
  complete : Bool
  date : ℤ
deriving DecidableEq, Repr

def defaultBar : Bar := { close := 0, complete := false, date := 0 }

/-- The dictionary returned by get_stock_data in src/main.py. -/
structure Quote where
  price : ℚ
  prev_close : ℚ
  change : ℚ
  change_pct : ℚ
  date : ℤ
  verified : Bool
deriving DecidableEq, Repr

/-- Outcome of one call to the provider: an exception during fetch, or a
(possibly empty) history of daily bars. -/
inductive FetchResult where
  | err : FetchResult
  | ok : List Bar → FetchResult
deriving DecidableEq

/-- The body of one iteration of the retry loop of get_stock_data
(src/main.py lines 62-101): length check on the raw history, dropna,
length check again, extract the last two rows, positivity check, then
build the quote dictionary.  A fetch exception yields no quote. -/
def attemptQuote : FetchResult → Option Quote
  | FetchResult.err => none
  | FetchResult.ok hist =>
    if hist.length < 2 then none
    else
      let h := hist.filter (fun b => b.complete)
      if h.length < 2 then none
      else
        let latest := h.getLast?.getD defaultBar
        let prev := h.dropLast.getLast?.getD defaultBar
        let price := latest.close
        let prev_close := prev.close
        if price ≤ 0 ∨ prev_close ≤ 0 then none
        else
          some { price := price
                 prev_close := prev_close
                 change := price - prev_close
                 change_pct := (price - prev_close) / prev_close * 100
                 date := latest.date
                 verified := true }

/-- The closing price of the last complete bar of a history (the iloc[-1]
row after dropna). -/
def lastClose (hist : List Bar) : ℚ :=
  ((hist.filter (fun b => b.complete)).getLast?.getD defaultBar).close

/-- The closing price of the second-to-last complete bar of a history (the
iloc[-2] row after dropna). -/
def prevClose (hist : List Bar) : ℚ :=
  ((hist.filter (fun b => b.complete)).dropLast.getLast?.getD defaultBar).close

/-- The retry loop of get_stock_data: run the attempts whose indices are in
the list, return the first quote produced, none when all fail. -/
def getStockDataGo (fetch : ℕ → FetchResult) : List ℕ → Option Quote
  | [] => none
  | a :: rest =>
    match attemptQuote (fetch a) with
    | some q => some q
    | none => getStockDataGo fetch rest

/-- get_stock_data (src/main.py lines 59-103): for attempt in range(3). -/
def get_stock_data (fetch : ℕ → FetchResult) : Option Quote :=
  getStockDataGo fetch [0, 1, 2]

/-- get_trend_emoji (src/main.py lines 142-153). -/
def get_trend_emoji (change_pct : ℚ) : String :=
  if change_pct ≥ 1 then "🚀"
  else if change_pct ≥ 3/10 then "📈"
  else if change_pct > -3/10 then "➡️"
  else if change_pct > -1 then "📉"
  else "⚠️"

/-- A concrete two-bar history used to exercise the fetcher on a fully
successful attempt. -/
def sampleHist : List Bar :=
  [{ close := 100, complete := true, date := 0 },
   { close := 102, complete := true, date := 1 }]

/-- A provider oracle that returns the sample history on every attempt. -/
def sampleFetch : ℕ → FetchResult := fun _ => FetchResult.ok sampleHist

/-- A history whose two complete bars are separated by a bar with missing
values, so the bars used for the day-over-day change are not adjacent. -/
def gapHist : List Bar :=
  [{ close := 100, complete := true, date := 0 },
   { close := 50, complete := false, date := 1 },
   { close := 101, complete := true, date := 2 }]

/-! ### Fixed-point decimal formatting

Model of the Python format specifiers used in src/main.py: a fixed number
of decimal places, optional thousands separators, rounding half to even
like the CPython float formatter. -/

/-- The character of a decimal digit. -/
def digitChar (d : ℕ) : Char := Char.ofNat (48 + d)

/-- The ten decimal digit characters. -/
def digitList : List Char := ['0', '1', '2', '3', '4', '5', '6', '7', '8', '9']

/-- Decimal digits of a number, least significant first, with explicit
fuel (the number itself suffices).  Empty for zero. -/
def natDigitsAux : ℕ → ℕ → List Char
  | 0, _ => []
  | fuel + 1, n => if n = 0 then [] else digitChar (n % 10) :: natDigitsAux fuel (n / 10)

/-- Insert a thousands separator every three digits; the input and output
lists are least significant digit first. -/
def group3 : List Char → List Char
  | c1 :: c2 :: c3 :: c4 :: rest => c1 :: c2 :: c3 :: ',' :: group3 (c4 :: rest)
  | l => l

/-- The integer part of a formatted number, most significant digit first,
with thousands separators when `sep` is set. -/
def intChars (n : ℕ) (sep : Bool) : List Char :=
  let ds := if n = 0 then ['0'] else natDigitsAux n n
  (if sep then group3 ds else ds).reverse

/-- The fractional part: `fp < 10 ^ dec` rendered as exactly `dec` digits,
most significant first, padded with leading zeros. -/
def fracChars (fp dec : ℕ) : List Char :=
  ((natDigitsAux fp fp ++ List.replicate dec '0').take dec).reverse

/-- Round to the nearest integer, ties to even, as the CPython float
formatter does. -/
def roundHalfEven (q : ℚ) : ℤ :=
  let f := ⌊q⌋
  let r := q - f
  if r < 1/2 then f
  else if 1/2 < r then f + 1
  else if f % 2 = 0 then f else f + 1

/-- Characters of a number formatted with `dec` decimal places and
optional thousands separators. -/
def fmtFixedChars (q : ℚ) (dec : ℕ) (sep : Bool) : List Char :=
  let scaled := roundHalfEven (q * (10 : ℚ) ^ dec)
  let n := scaled.natAbs
  let ip := n / 10 ^ dec
  let fp := n % 10 ^ dec
  (if scaled < 0 then ['-'] else []) ++ intChars ip sep ++
    (if dec = 0 then [] else '.' :: fracChars fp dec)

/-- A number formatted with `dec` decimal places and optional thousands
separators, as a string. -/
def fmtFixed (q : ℚ) (dec : ℕ) (sep : Bool) : String :=
  String.mk (fmtFixedChars q dec sep)

/-- Number of characters after the decimal point of a formatted string
(zero when there is no decimal point). -/
def decimalsOfL (l : List Char) : ℕ :=
  if '.' ∈ l then (l.reverse.takeWhile (fun c => c ≠ '.')).length else 0

def decimalsOf (s : String) : ℕ := decimalsOfL s.data

/-- The currency-pair detection of format_price: the Python test is the
substring test of the dollar-yen display name against the name. -/
def isFxName (name : String) : Bool := decide ("ドル円".data <:+: name.data)

/-- format_price (src/main.py lines 130-139). -/
def format_price (price : ℚ) (name : String) : String :=
  if isFxName name then fmtFixed price 2 false ++ " 円"
  else if price ≥ 10000 then fmtFixed price 0 true
  else if price ≥ 100 then fmtFixed price 0 true
  else fmtFixed price 2 true

/-! ### Market configuration and the full pipeline -/

/-- One category of the MARKET_DATA table. -/
structure MarketConfig where
  title : String
  emoji : String
  symbols : List (String × String)
deriving DecidableEq

/-- MARKET_DATA (src/main.py lines 25-50). -/
def MARKET_DATA : List (String × MarketConfig) :=
  [ ("japan", { title := "日本市場", emoji := "🇯🇵",
                symbols := [("^N225", "日経平均"), ("1306.T", "TOPIX")] }),
    ("us", { title := "米国市場（前日）", emoji := "🇺🇸",
             symbols := [("^GSPC", "S&P 500"), ("^IXIC", "NASDAQ"), ("^DJI", "ダウ")] }),
    ("fx", { title := "為替", emoji := "💱",
             symbols := [("USDJPY=X", "ドル円")] }) ]

/-- One category of the result of fetch_all_market_data: title, emoji and
the name-to-quote association of the symbols that fetched successfully. -/
structure MarketSection where
  title : String
  emoji : String
  data : List (String × Quote)
deriving DecidableEq

/-- The body of the inner loop of fetch_all_market_data: the entry stored
for one symbol, none on failure or when the verified flag is unset. -/
def symbolQuote (fetch : String → ℕ → FetchResult) (sym name : String) :
    Option (String × Quote) :=
  match get_stock_data (fetch sym) with
  | some d => if d.verified then some (name, d) else none
  | none => none

/-- fetch_all_market_data (src/main.py lines 106-127), with the provider
modelled as a per-symbol oracle of attempt outcomes. -/
def fetch_all_market_data (fetch : String → ℕ → FetchResult) :
    List (String × MarketSection) :=
  MARKET_DATA.map (fun p =>
    (p.1, { title := p.2.title, emoji := p.2.emoji,
            data := p.2.symbols.filterMap (fun sn => symbolQuote fetch sn.1 sn.2) }))

/-- Total number of fetched quotes across the categories, as summed at
src/main.py line 279. -/
def totalItems (md : List (String × MarketSection)) : ℕ :=
  (md.map (fun p => p.2.data.length)).sum

/-- generate_ai_analysis (src/main.py lines 156-205) with the OpenAI call
modelled as an oracle: a successful completion is stripped and returned,
any exception is replaced by the fixed fallback sentence. -/
def generate_ai_analysis (response : Except Unit String) : String :=
  match response with
  | Except.ok s => s.trim
  | Except.error _ => "本日の分析を生成できませんでした。"

/-- One quote line of the report (src/main.py line 233). -/
def quoteLine (name : String) (v : Quote) : String :=
  "┃ " ++ name ++ "　" ++ format_price v.price name ++ "（" ++
    (if v.change_pct ≥ 0 then "+" else "") ++ fmtFixed v.change_pct 2 false ++
    "%）" ++ get_trend_emoji v.change_pct

/-- The block of lines of one market section (src/main.py lines 221-233);
a category absent from the data or with no quotes is skipped. -/
def sectionLines (info : MarketSection) : List String :=
  if info.data.isEmpty then []
  else ["", info.emoji ++ " **" ++ info.title ++ "**"] ++
    info.data.map (fun p => quoteLine p.1 p.2)

/-- The lines of format_message (src/main.py lines 208-245), with the
formatted date string a parameter. -/
def formatMessageLines (md : List (String × MarketSection)) (ai : String)
    (dateStr : String) : List String :=
  ["☀️ おはようございます！",
   "📊 **" ++ dateStr ++ "の市況レポート**",
   "",
   "━━━━━━━━━━━━━━━━"] ++
  (["japan", "us", "fx"].map (fun cat =>
    match md.lookup cat with
    | none => []
    | some info => sectionLines info)).flatten ++
  ["",
   "━━━━━━━━━━━━━━━━",
   "",
   "💡 **今日のポイント**",
   "",
   ai,
   "",
   "━━━━━━━━━━━━━━━━",
   "良い一日を！🍀"]

/-- The newline join of format_message (src/main.py line 245). -/
def joinLines : List String → String
  | [] => ""
  | [l] => l
  | l :: l2 :: rest => l ++ "\n" ++ joinLines (l2 :: rest)

/-- format_message: the full assembled message body. -/
def format_message (md : List (String × MarketSection)) (ai : String)
    (dateStr : String) : String :=
  joinLines (formatMessageLines md ai dateStr)

/-- Process environment of main: the weekday test on the current JST date
and the two environment variables. -/
structure Env where
  isWeekday : Bool
  webhook : Option String
  openaiKey : Option String

/-- Observable outcome of one run of main: the exit code and which stages
of the pipeline were reached. -/
structure RunTrace where
  exitCode : ℕ
  fetchedMarketData : Bool
  generatedAnalysis : Bool
  attemptedPublish : Bool
  message : Option String
deriving DecidableEq

/-- main (src/main.py lines 261-298).  The weekend return is exit code 0;
a missing environment variable exits 1 before any fetch; zero fetched
quotes exits 1 before analysis and publish; otherwise the message is
assembled and posted, publish failure exits 1. -/
def main (env : Env) (fetch : String → ℕ → FetchResult)
    (aiResponse : Except Unit String) (dateStr : String) (sendOk : Bool) : RunTrace :=
  if env.isWeekday = false then
    { exitCode := 0, fetchedMarketData := false, generatedAnalysis := false,
      attemptedPublish := false, message := none }
  else if env.webhook.isNone then
    { exitCode := 1, fetchedMarketData := false, generatedAnalysis := false,
      attemptedPublish := false, message := none }
  else if env.openaiKey.isNone then
    { exitCode := 1, fetchedMarketData := false, generatedAnalysis := false,
      attemptedPublish := false, message := none }
  else
    let md := fetch_all_market_data fetch
    if totalItems md = 0 then
      { exitCode := 1, fetchedMarketData := true, generatedAnalysis := false,
        attemptedPublish := false, message := none }
    else
      let ai := generate_ai_analysis aiResponse
      let msg := format_message md ai dateStr
      { exitCode := if sendOk then 0 else 1, fetchedMarketData := true,
        generatedAnalysis := true, attemptedPublish := true, message := some msg }

end StockBot

namespace NewsBot

/-- One news item of src/news_bot.py. -/
structure NewsItem where
  title : String
  link : String
  source : String
  origin : String
deriving DecidableEq, Repr

/-- The whitespace class of a Python regular expression over str
(the characters matched by the backslash-s class in CPython 3). -/
def isPyWhitespace (c : Char) : Bool :=
  let n := c.toNat
  (9 ≤ n && n ≤ 13) || (28 ≤ n && n ≤ 31) || n = 32 || n = 133 || n = 160 ||
    n = 5760 || (8192 ≤ n && n ≤ 8202) || n = 8232 || n = 8233 || n = 8239 ||
    n = 8287 || n = 12288

/-- The deduplication key of a title (src/news_bot.py line 102): remove
every whitespace run, keep the first 30 characters. -/
def newsKey (title : String) : String :=
  String.mk ((title.data.filter (fun c => !(isPyWhitespace c))).take 30)

/-- The loop of deduplicate_news, with the seen-titles set as a list of
keys. -/
def dedupGo (seen : List String) : List NewsItem → List NewsItem
  | [] => []
  | it :: rest =>
    if newsKey it.title ∈ seen then dedupGo seen rest
    else it :: dedupGo (newsKey it.title :: seen) rest

/-- deduplicate_news (src/news_bot.py lines 96-108). -/
def deduplicate_news (items : List NewsItem) : List NewsItem :=
  dedupGo [] items

/-- A news item whose title shares its first 30 characters with itemB. -/
def itemA : NewsItem :=
  { title := "aaaaaaaaaaaaaaaaaaaaaaaaaaaaaaXXX", link := "L1",
    source := "S1", origin := "O1" }

/-- A news item that differs from itemA only after character 30. -/
def itemB : NewsItem :=
  { title := "aaaaaaaaaaaaaaaaaaaaaaaaaaaaaaYYY", link := "L2",
    source := "S2", origin := "O2" }

end NewsBot

namespace StockBot

/-! ### Lemmas about the quote fetcher -/

lemma getStockDataGo_eq_some (fetch : ℕ → FetchResult) (l : List ℕ) (q : Quote)
    (h : getStockDataGo fetch l = some q) : ∃ a ∈ l, attemptQuote (fetch a) = some q := by
  induction l with
  | nil => simp [getStockDataGo] at h
  | cons a rest ih =>
    rw [getStockDataGo] at h
    cases hq : attemptQuote (fetch a) with
    | some q2 =>
      rw [hq] at h
      simp only [Option.some.injEq] at h
      exact ⟨a, List.mem_cons_self a rest, by rw [hq, h]⟩
    | none =>
      rw [hq] at h
      obtain ⟨b, hb, hab⟩ := ih h
      exact ⟨b, List.mem_cons_of_mem a hb, hab⟩

lemma attemptQuote_some_spec (r : FetchResult) (q : Quote)
    (h : attemptQuote r = some q) :
    ∃ hist, r = FetchResult.ok hist ∧ 2 ≤ hist.length ∧
      2 ≤ (hist.filter (fun b => b.complete)).length ∧
      q.price = lastClose hist ∧ q.prev_close = prevClose hist ∧
      0 < q.price ∧ 0 < q.prev_close ∧
      q.change = q.price - q.prev_close ∧
      q.change_pct = q.change / q.prev_close * 100 ∧
      q.verified = true := by
  cases r with
  | err => simp [attemptQuote] at h
  | ok hist =>
    refine ⟨hist, rfl, ?_⟩
    simp only [attemptQuote] at h
    split_ifs at h with h1 h2 h3
    push_neg at h3
    simp only [Option.some.injEq] at h
    subst h
    exact ⟨by omega, by omega, rfl, rfl, h3.1, h3.2, rfl, rfl, rfl⟩

lemma getStockDataGo_congr (f g : ℕ → FetchResult) (l : List ℕ)
    (h : ∀ a ∈ l, attemptQuote (f a) = attemptQuote (g a)) :
    getStockDataGo f l = getStockDataGo g l := by
  induction l with
  | nil => rfl
  | cons a rest ih =>
    simp only [getStockDataGo]
    rw [h a (List.mem_cons_self a rest),
      ih (fun b hb => h b (List.mem_cons_of_mem a hb))]

lemma getStockDataGo_none (f : ℕ → FetchResult) (l : List ℕ)
    (h : ∀ a ∈ l, attemptQuote (f a) = none) : getStockDataGo f l = none := by
  induction l with
  | nil => rfl
  | cons a rest ih =>
    simp only [getStockDataGo]
    rw [h a (List.mem_cons_self a rest)]
    exact ih (fun b hb => h b (List.mem_cons_of_mem a hb))

lemma getStockData_verified (fetch : ℕ → FetchResult) (q : Quote)
    (h : get_stock_data fetch = some q) : q.verified = true := by
  obtain ⟨a, _, ha⟩ := getStockDataGo_eq_some fetch [0, 1, 2] q h
  obtain ⟨hist, _, _, _, _, _, _, _, _, _, hv⟩ := attemptQuote_some_spec _ _ ha
  exact hv

/-! ### Claim C1: trend glyph buckets -/

/-- Claim C1, counterexample: the claim demands that exact equality at
every one of the four thresholds select the higher bucket, but at percent
change exactly -0.3 the code selects the down glyph, not the flat glyph of
the higher bucket (the comparison at -0.3 is strict). -/
theorem get_trend_emoji_neg_boundary :
    get_trend_emoji (-3/10) = "📉" ∧ get_trend_emoji (-3/10) ≠ "➡️" := by
  have h : get_trend_emoji (-3/10) = "📉" := by
    unfold get_trend_emoji
    rw [if_neg (by norm_num), if_neg (by norm_num), if_neg (by norm_num),
        if_pos (by norm_num)]
  exact ⟨h, by rw [h]; decide⟩

/-- Claim C1, amended: the trend glyph is the 5-bucket step function of
percent change, where exact equality at +1.0 or +0.3 selects the higher
bucket (the comparisons are greater-or-equal) while exact equality at
-0.3 or -1.0 selects the lower bucket (the comparisons are strict). -/
theorem get_trend_emoji_buckets (p : ℚ) :
    (1 ≤ p → get_trend_emoji p = "🚀") ∧
    (3/10 ≤ p → p < 1 → get_trend_emoji p = "📈") ∧
    (-3/10 < p → p < 3/10 → get_trend_emoji p = "➡️") ∧
    (-1 < p → p ≤ -3/10 → get_trend_emoji p = "📉") ∧
    (p ≤ -1 → get_trend_emoji p = "⚠️") := by
  unfold get_trend_emoji
  refine ⟨fun h1 => ?_, fun h1 h2 => ?_, fun h1 h2 => ?_, fun h1 h2 => ?_,
    fun h1 => ?_⟩ <;>
    split_ifs with a1 a2 a3 a4 <;> first | rfl | linarith

/-- Claim C1, witness: the bucket theorem applied at the two positive
thresholds and at zero. -/
theorem get_trend_emoji_buckets_witness :
    get_trend_emoji 1 = "🚀" ∧ get_trend_emoji (3/10) = "📈" ∧
    get_trend_emoji 0 = "➡️" :=
  ⟨(get_trend_emoji_buckets 1).1 le_rfl,
   (get_trend_emoji_buckets (3/10)).2.1 le_rfl (by norm_num),
   (get_trend_emoji_buckets 0).2.2.1 (by norm_num) (by norm_num)⟩

/-! ### Claim C2: change and percent change -/

/-- Claim C2: every quote the fetcher returns satisfies
change = latest - previous and percent = change / previous * 100; and a
fetch whose first attempt yields a history with at least two complete bars
of positive closing prices returns such a quote built from the last two
complete bars. -/
theorem get_stock_data_change_spec :
    (∀ (fetch : ℕ → FetchResult) (q : Quote), get_stock_data fetch = some q →
       q.change = q.price - q.prev_close ∧
       q.change_pct = q.change / q.prev_close * 100) ∧
    (∀ (fetch : ℕ → FetchResult) (hist : List Bar),
       fetch 0 = FetchResult.ok hist →
       2 ≤ (hist.filter (fun b => b.complete)).length →
       0 < lastClose hist → 0 < prevClose hist →
       ∃ q, get_stock_data fetch = some q ∧ q.price = lastClose hist ∧
         q.prev_close = prevClose hist ∧
         q.change = lastClose hist - prevClose hist ∧
         q.change_pct = (lastClose hist - prevClose hist) / prevClose hist * 100) := by
  constructor
  · intro fetch q h
    obtain ⟨a, _, ha⟩ := getStockDataGo_eq_some fetch [0, 1, 2] q h
    obtain ⟨hist, _, _, _, _, _, _, _, hch, hpct, _⟩ := attemptQuote_some_spec _ _ ha
    exact ⟨hch, hpct⟩
  · intro fetch hist h0 hlen hl hp
    have hraw : ¬ hist.length < 2 := by
      have := List.length_filter_le (fun b => b.complete) hist
      omega
    have hflt : ¬ (hist.filter (fun b => b.complete)).length < 2 := by omega
    have hcond : ¬ (lastClose hist ≤ 0 ∨ prevClose hist ≤ 0) := by
      push_neg
      exact ⟨hl, hp⟩
    have hstep : attemptQuote (FetchResult.ok hist) = some
        { price := lastClose hist, prev_close := prevClose hist,
          change := lastClose hist - prevClose hist,
          change_pct := (lastClose hist - prevClose hist) / prevClose hist * 100,
          date := ((hist.filter (fun b => b.complete)).getLast?.getD defaultBar).date,
          verified := true } := by
      simp only [attemptQuote]
      rw [show ((hist.filter (fun b => b.complete)).getLast?.getD defaultBar).close
            = lastClose hist from rfl,
        show ((hist.filter (fun b => b.complete)).dropLast.getLast?.getD defaultBar).close
            = prevClose hist from rfl,
        if_neg hraw, if_neg hflt, if_neg hcond]
    exact ⟨_, by unfold get_stock_data; simp only [getStockDataGo]; rw [h0, hstep],
      rfl, rfl, rfl, rfl⟩

/-- Claim C2, witness: the fetcher applied to a concrete two-bar history
with closes 100 and 102. -/
theorem get_stock_data_change_witness :
    ∃ q, get_stock_data sampleFetch = some q ∧ q.price = lastClose sampleHist ∧
      q.prev_close = prevClose sampleHist ∧
      q.change = lastClose sampleHist - prevClose sampleHist ∧
      q.change_pct = (lastClose sampleHist - prevClose sampleHist) /
        prevClose sampleHist * 100 := by
  refine get_stock_data_change_spec.2 sampleFetch sampleHist rfl (by decide) ?_ ?_
  · have e : lastClose sampleHist = 102 := rfl
    rw [e]; norm_num
  · have e : prevClose sampleHist = 100 := rfl
    rw [e]; norm_num

/-! ### Claim C3: bounded retry, uniform failure handling -/

/-- Claim C3: the fetcher reads at most the first 3 attempts, returns the
explicit unavailable result when all 3 fail, treats a fetch error and a
validation failure (too few bars, or a non-positive latest or comparison
price) identically as a failed attempt, and moves on to the next attempt
after a failure. -/
theorem get_stock_data_retry_spec :
    (∀ fetch fetch2 : ℕ → FetchResult, (∀ i, i < 3 → fetch i = fetch2 i) →
       get_stock_data fetch = get_stock_data fetch2) ∧
    (∀ fetch : ℕ → FetchResult, (∀ i, i < 3 → attemptQuote (fetch i) = none) →
       get_stock_data fetch = none) ∧
    attemptQuote FetchResult.err = none ∧
    (∀ hist : List Bar, hist.length < 2 →
       attemptQuote (FetchResult.ok hist) = none) ∧
    (∀ hist : List Bar, lastClose hist ≤ 0 ∨ prevClose hist ≤ 0 →
       attemptQuote (FetchResult.ok hist) = none) ∧
    (∀ (fetch : ℕ → FetchResult) (q : Quote), attemptQuote (fetch 0) = none →
       attemptQuote (fetch 1) = some q → get_stock_data fetch = some q) := by
  refine ⟨?_, ?_, rfl, ?_, ?_, ?_⟩
  · intro f g h
    unfold get_stock_data
    refine getStockDataGo_congr f g [0, 1, 2] ?_
    intro a ha
    simp only [List.mem_cons, List.not_mem_nil, or_false] at ha
    rcases ha with rfl | rfl | rfl
    · rw [h 0 (by omega)]
    · rw [h 1 (by omega)]
    · rw [h 2 (by omega)]
  · intro f h
    unfold get_stock_data
    refine getStockDataGo_none f [0, 1, 2] ?_
    intro a ha
    simp only [List.mem_cons, List.not_mem_nil, or_false] at ha
    rcases ha with rfl | rfl | rfl
    · exact h 0 (by omega)
    · exact h 1 (by omega)
    · exact h 2 (by omega)
  · intro hist h
    simp only [attemptQuote]
    rw [if_pos h]
  · intro hist h
    simp only [attemptQuote]
    split_ifs with h1 h2 h3
    all_goals first | rfl | exact absurd h h3
  · intro f q h0 h1
    unfold get_stock_data
    simp only [getStockDataGo]
    rw [h0, h1]

/-- Claim C3, witness: a provider that always raises makes the fetcher
return the unavailable result. -/
theorem get_stock_data_retry_witness :
    get_stock_data (fun _ => FetchResult.err) = none ∧
    attemptQuote FetchResult.err = none :=
  ⟨get_stock_data_retry_spec.2.1 (fun _ => FetchResult.err) (fun _ _ => rfl),
   get_stock_data_retry_spec.2.2.1⟩

/-! ### Claim C7: positivity invariant of returned quotes -/

/-- Claim C7: every quote the fetcher returns has strictly positive latest
and previous-close prices, the previous close in particular is nonzero,
and the percent change is the division by that checked-positive previous
close. -/
theorem get_stock_data_positive_prices (fetch : ℕ → FetchResult) (q : Quote)
    (h : get_stock_data fetch = some q) :
    0 < q.price ∧ 0 < q.prev_close ∧ q.prev_close ≠ 0 ∧
    q.change_pct = q.change / q.prev_close * 100 := by
  obtain ⟨a, _, ha⟩ := getStockDataGo_eq_some fetch [0, 1, 2] q h
  obtain ⟨hist, _, _, _, _, _, hp1, hp2, _, hpct, _⟩ := attemptQuote_some_spec _ _ ha
  exact ⟨hp1, hp2, hp2.ne', hpct⟩

/-- Claim C7, witness: the positivity theorem applied to the concrete
sample fetch. -/
theorem get_stock_data_positive_witness :
    0 < (⟨102, 100, 2, 2, 1, true⟩ : Quote).price ∧
    0 < (⟨102, 100, 2, 2, 1, true⟩ : Quote).prev_close := by
  have h : get_stock_data sampleFetch = some ⟨102, 100, 2, 2, 1, true⟩ := by
    unfold sampleFetch sampleHist get_stock_data getStockDataGo attemptQuote
    norm_num
  exact ⟨(get_stock_data_positive_prices sampleFetch _ h).1,
    (get_stock_data_positive_prices sampleFetch _ h).2.1⟩

/-! ### Claim C9: dropna before bar selection -/

/-- Claim C9: a successful attempt computes its prices from the last two
complete bars of the history (bars with missing values having been dropped
first, so the two bars need not be adjacent), an attempt with fewer than
two complete bars fails, and a failed first attempt makes the loop move on
to the remaining attempts. -/
theorem get_stock_data_dropna_spec :
    (∀ (hist : List Bar) (q : Quote), attemptQuote (FetchResult.ok hist) = some q →
       q.price = lastClose hist ∧ q.prev_close = prevClose hist ∧
       q.change = lastClose hist - prevClose hist) ∧
    (∀ hist : List Bar, (hist.filter (fun b => b.complete)).length < 2 →
       attemptQuote (FetchResult.ok hist) = none) ∧
    (∀ fetch : ℕ → FetchResult, attemptQuote (fetch 0) = none →
       get_stock_data fetch = getStockDataGo fetch [1, 2]) := by
  refine ⟨?_, ?_, ?_⟩
  · intro hist q h
    obtain ⟨hist2, heq, _, _, hp, hpc, _, _, hch, _, _⟩ := attemptQuote_some_spec _ _ h
    injection heq with hh
    subst hh
    rw [hp, hpc] at hch
    exact ⟨hp, hpc, hch⟩
  · intro hist h
    simp only [attemptQuote]
    split_ifs with h1
    all_goals rfl
  · intro fetch h0
    unfold get_stock_data
    simp only [getStockDataGo]
    rw [h0]

/-- Claim C9, witness: a history whose middle bar is incomplete yields a
quote built from the first and third bars. -/
theorem get_stock_data_dropna_witness :
    (⟨101, 100, 1, 1, 2, true⟩ : Quote).price = lastClose gapHist ∧
    (⟨101, 100, 1, 1, 2, true⟩ : Quote).prev_close = prevClose gapHist := by
  have h : attemptQuote (FetchResult.ok gapHist) = some ⟨101, 100, 1, 1, 2, true⟩ := by
    unfold gapHist attemptQuote
    norm_num
  exact ⟨(get_stock_data_dropna_spec.1 gapHist _ h).1,
    (get_stock_data_dropna_spec.1 gapHist _ h).2.1⟩

end StockBot

namespace NewsBot

/-! ### Claim C10: news deduplication -/

lemma dedupGo_sublist (seen : List String) (items : List NewsItem) :
    (dedupGo seen items).Sublist items := by
  induction items generalizing seen with
  | nil => simp [dedupGo]
  | cons it rest ih =>
    simp only [dedupGo]
    split_ifs with h
    · exact (ih seen).cons it
    · exact (ih _).cons₂ it

lemma dedupGo_mem_iff (items : List NewsItem) (seen : List String) (x : NewsItem) :
    x ∈ dedupGo seen items ↔ (newsKey x.title ∉ seen ∧
      items.find? (fun y => newsKey y.title == newsKey x.title) = some x) := by
  induction items generalizing seen with
  | nil => simp [dedupGo]
  | cons it rest ih =>
    by_cases hseen : newsKey it.title ∈ seen
    · rw [show dedupGo seen (it :: rest) = dedupGo seen rest from by
        simp [dedupGo, hseen]]
      by_cases hkey : newsKey it.title = newsKey x.title
      · constructor
        · intro hx
          exact absurd (hkey ▸ hseen) ((ih seen).1 hx).1
        · rintro ⟨hns, hfind⟩
          rw [List.find?_cons_of_pos _ (by simp [hkey])] at hfind
          simp only [Option.some.injEq] at hfind
          subst hfind
          exact absurd (hkey ▸ hseen) hns
      · rw [ih seen, List.find?_cons_of_neg _ (by simp only [beq_iff_eq]; exact hkey)]
    · rw [show dedupGo seen (it :: rest) =
          it :: dedupGo (newsKey it.title :: seen) rest from by simp [dedupGo, hseen]]
      by_cases hkey : newsKey it.title = newsKey x.title
      · rw [List.find?_cons_of_pos _ (by simp [hkey])]
        constructor
        · intro hx
          rcases List.mem_cons.1 hx with rfl | hx2
          · exact ⟨hseen, rfl⟩
          · have h2 := (ih _).1 hx2
            have hc : newsKey x.title ∈ newsKey it.title :: seen := by
              rw [← hkey]
              exact List.mem_cons_self _ _
            exact absurd hc h2.1
        · rintro ⟨hns, hfind⟩
          simp only [Option.some.injEq] at hfind
          subst hfind
          exact List.mem_cons_self _ _
      · rw [List.find?_cons_of_neg _ (by simp only [beq_iff_eq]; exact hkey)]
        constructor
        · intro hx
          rcases List.mem_cons.1 hx with rfl | hx2
          · exact absurd rfl hkey
          · have h2 := (ih _).1 hx2
            exact ⟨fun hc => h2.1 (List.mem_cons_of_mem _ hc), h2.2⟩
        · rintro ⟨hns, hfind⟩
          refine List.mem_cons_of_mem _ ((ih _).2 ⟨?_, hfind⟩)
          intro hc
          rcases List.mem_cons.1 hc with hceq | hcs
          · exact hkey hceq.symm
          · exact hns hcs

lemma dedupGo_keys_nodup (items : List NewsItem) (seen : List String) :
    ((dedupGo seen items).map (fun it => newsKey it.title)).Nodup := by
  induction items generalizing seen with
  | nil => simp [dedupGo]
  | cons it rest ih =>
    by_cases hseen : newsKey it.title ∈ seen
    · rw [show dedupGo seen (it :: rest) = dedupGo seen rest from by
        simp [dedupGo, hseen]]
      exact ih seen
    · rw [show dedupGo seen (it :: rest) =
          it :: dedupGo (newsKey it.title :: seen) rest from by simp [dedupGo, hseen]]
      simp only [List.map_cons, List.nodup_cons]
      refine ⟨?_, ih _⟩
      intro hc
      rcases List.mem_map.1 hc with ⟨y, hy, hkeyy⟩
      have h2 := (dedupGo_mem_iff rest _ y).1 hy
      exact h2.1 (by rw [hkeyy]; exact List.mem_cons_self _ _)

/-- Claim C10: deduplicate_news returns an order-preserving subsequence of
its input whose items have pairwise distinct deduplication keys (the first
30 characters of the whitespace-stripped title), and an item is kept
exactly when it is the first input item carrying its key; in particular
items whose titles agree on the key are duplicates even when the titles
differ beyond character 30. -/
theorem deduplicate_news_spec (items : List NewsItem) :
    (deduplicate_news items).Sublist items ∧
    ((deduplicate_news items).map (fun it => newsKey it.title)).Nodup ∧
    ∀ x : NewsItem, x ∈ deduplicate_news items ↔
      items.find? (fun y => newsKey y.title == newsKey x.title) = some x := by
  refine ⟨dedupGo_sublist [] items, dedupGo_keys_nodup items [], ?_⟩
  intro x
  rw [deduplicate_news, dedupGo_mem_iff items [] x]
  simp

/-- Claim C10, witness: two items whose 33-character titles agree on the
first 30 characters are deduplicated in favor of the first. -/
theorem deduplicate_news_witness : itemB ∉ deduplicate_news [itemA, itemB] := by
  intro h
  have h2 := ((deduplicate_news_spec [itemA, itemB]).2.2 itemB).1 h
  have h3 : List.find? (fun y => newsKey y.title == newsKey itemB.title)
      [itemA, itemB] ≠ some itemB := by decide
  exact h3 h2

end NewsBot

namespace StockBot

/-! ### Claim C8: price formatting -/

lemma takeWhileAllStop {p : Char → Bool} (xs : List Char) (y : Char) (ys : List Char)
    (hall : ∀ c ∈ xs, p c = true) (hy : p y = false) :
    (xs ++ y :: ys).takeWhile p = xs := by
  induction xs with
  | nil => simp [List.takeWhile_cons, hy]
  | cons a as ih =>
    have ha := hall a (List.mem_cons_self _ _)
    simp [List.takeWhile_cons, ha,
      ih (fun c hc => hall c (List.mem_cons_of_mem _ hc))]

lemma decimalsOfL_append_dot (a b : List Char) (hb : '.' ∉ b) :
    decimalsOfL (a ++ '.' :: b) = b.length := by
  unfold decimalsOfL
  rw [if_pos (by simp), List.reverse_append, List.reverse_cons, List.append_assoc,
    List.singleton_append,
    takeWhileAllStop _ _ _ (fun c hc => by
      simp only [decide_eq_true_eq]
      intro hcd
      exact hb (hcd ▸ List.mem_reverse.1 hc)) (by simp),
    List.length_reverse]

lemma decimalsOfL_no_dot (l : List Char) (h : '.' ∉ l) : decimalsOfL l = 0 := by
  unfold decimalsOfL
  rw [if_neg h]

lemma digitChar_mem_digitList (d : ℕ) (h : d < 10) : digitChar d ∈ digitList := by
  interval_cases d <;> decide

lemma natDigitsAux_subset (fuel n : ℕ) : ∀ c ∈ natDigitsAux fuel n, c ∈ digitList := by
  induction fuel generalizing n with
  | zero => simp [natDigitsAux]
  | succ f ih =>
    intro c hc
    rw [natDigitsAux] at hc
    split_ifs at hc with h
    · simp at hc
    · rcases List.mem_cons.1 hc with rfl | hc2
      · exact digitChar_mem_digitList _ (Nat.mod_lt _ (by omega))
      · exact ih _ c hc2

lemma group3_mem : ∀ (l : List Char) (c : Char), c ∈ group3 l → c ∈ l ∨ c = ','
  | [], _, h => Or.inl h
  | [_], _, h => Or.inl h
  | [_, _], _, h => Or.inl h
  | [_, _, _], _, h => Or.inl h
  | a :: b :: d :: e :: rest, c, h => by
    simp only [group3] at h
    rcases List.mem_cons.1 h with rfl | h
    · exact Or.inl (List.mem_cons_self _ _)
    rcases List.mem_cons.1 h with rfl | h
    · exact Or.inl (by simp)
    rcases List.mem_cons.1 h with rfl | h
    · exact Or.inl (by simp)
    rcases List.mem_cons.1 h with rfl | h
    · exact Or.inr rfl
    rcases group3_mem (e :: rest) c h with h2 | h2
    · exact Or.inl (List.mem_cons_of_mem _ (List.mem_cons_of_mem _
        (List.mem_cons_of_mem _ h2)))
    · exact Or.inr h2

lemma intChars_mem (n : ℕ) (sep : Bool) (c : Char) (hc : c ∈ intChars n sep) :
    c ∈ digitList ∨ c = ',' := by
  have hds : ∀ x ∈ (if n = 0 then ['0'] else natDigitsAux n n), x ∈ digitList := by
    intro x hx
    split_ifs at hx with h
    · simp at hx
      subst hx
      decide
    · exact natDigitsAux_subset n n x hx
  simp only [intChars, List.mem_reverse] at hc
  cases sep with
  | false =>
    simp only [Bool.false_eq_true, if_false] at hc
    exact Or.inl (hds c hc)
  | true =>
    simp only [if_true] at hc
    rcases group3_mem _ _ hc with h2 | h2
    · exact Or.inl (hds c h2)
    · exact Or.inr h2

lemma fracChars_mem (fp dec : ℕ) (c : Char) (hc : c ∈ fracChars fp dec) :
    c ∈ digitList := by
  simp only [fracChars, List.mem_reverse] at hc
  have hc2 := List.take_subset _ _ hc
  rcases List.mem_append.1 hc2 with h2 | h2
  · exact natDigitsAux_subset _ _ _ h2
  · rw [List.eq_of_mem_replicate h2]
    decide

lemma fracChars_length (fp dec : ℕ) : (fracChars fp dec).length = dec := by
  simp only [fracChars, List.length_reverse, List.length_take, List.length_append,
    List.length_replicate]
  omega

lemma decimalsOf_fmtFixed_pos (q : ℚ) (dec : ℕ) (sep : Bool) (h : dec ≠ 0) :
    decimalsOf (fmtFixed q dec sep) = dec := by
  show decimalsOfL (fmtFixedChars q dec sep) = dec
  simp only [fmtFixedChars]
  rw [if_neg h,
    decimalsOfL_append_dot _ _ (fun hc => absurd (fracChars_mem _ _ _ hc) (by decide)),
    fracChars_length]

lemma decimalsOf_fmtFixed_zero (q : ℚ) (sep : Bool) :
    decimalsOf (fmtFixed q 0 sep) = 0 := by
  have hnd : '.' ∉ fmtFixedChars q 0 sep := by
    intro hc
    simp only [fmtFixedChars, if_true] at hc
    rw [List.append_nil] at hc
    rcases List.mem_append.1 hc with h2 | h2
    · split_ifs at h2 with hs
      · exact absurd (List.mem_singleton.1 h2) (by decide)
      · exact List.not_mem_nil _ h2
    · rcases intChars_mem _ _ _ h2 with h3 | h3
      · exact absurd h3 (by decide)
      · exact absurd h3 (by decide)
  exact decimalsOfL_no_dot _ hnd

/-- Claim C8: format_price is a pure function of price and display name: a
currency-pair display name selects 2 decimal places, no separators and the
currency suffix; otherwise a price at or above 10000, like one at or above
100, selects thousands separators and 0 decimal places, and a price below
100 selects thousands separators and 2 decimal places. -/
theorem format_price_spec (price : ℚ) (name : String) :
    (isFxName name = true →
       format_price price name = fmtFixed price 2 false ++ " 円" ∧
       decimalsOf (fmtFixed price 2 false) = 2) ∧
    (isFxName name = false → 10000 ≤ price →
       format_price price name = fmtFixed price 0 true ∧
       decimalsOf (format_price price name) = 0) ∧
    (isFxName name = false → 100 ≤ price → price < 10000 →
       format_price price name = fmtFixed price 0 true ∧
       decimalsOf (format_price price name) = 0) ∧
    (isFxName name = false → price < 100 →
       format_price price name = fmtFixed price 2 true ∧
       decimalsOf (format_price price name) = 2) := by
  refine ⟨fun hfx => ⟨?_, decimalsOf_fmtFixed_pos price 2 false (by omega)⟩,
    fun hfx hge => ?_, fun hfx hge hlt => ?_, fun hfx hlt => ?_⟩
  · unfold format_price
    rw [if_pos hfx]
  · have he : format_price price name = fmtFixed price 0 true := by
      unfold format_price
      rw [if_neg (by simp [hfx]), if_pos hge]
    exact ⟨he, by rw [he]; exact decimalsOf_fmtFixed_zero price true⟩
  · have he : format_price price name = fmtFixed price 0 true := by
      unfold format_price
      rw [if_neg (by simp [hfx]), if_neg (not_le.2 hlt), if_pos hge]
    exact ⟨he, by rw [he]; exact decimalsOf_fmtFixed_zero price true⟩
  · have he : format_price price name = fmtFixed price 2 true := by
      unfold format_price
      rw [if_neg (by simp [hfx]), if_neg (not_le.2 (by linarith)),
        if_neg (not_le.2 hlt)]
    exact ⟨he, by rw [he]; exact decimalsOf_fmtFixed_pos price 2 true (by omega)⟩

/-- Claim C8, witness: the dollar-yen name takes the currency branch with
2 decimals, and a large index price takes the separator branch with 0
decimals. -/
theorem format_price_witness :
    format_price (15032/100) "ドル円" = fmtFixed (15032/100) 2 false ++ " 円" ∧
    decimalsOf (fmtFixed (15032/100) 2 false) = 2 ∧
    format_price 38765 "日経平均" = fmtFixed 38765 0 true ∧
    decimalsOf (format_price 38765 "日経平均") = 0 := by
  have h1 := (format_price_spec (15032/100) "ドル円").1 (by decide)
  have h2 := (format_price_spec 38765 "日経平均").2.1 (by decide) (by norm_num)
  exact ⟨h1.1, h1.2, h2.1, h2.2⟩

end StockBot

namespace StockBot

/-! ### Lemmas about the assembled pipeline -/

lemma lookup_of_mem_nodupkeys (l : List (String × MarketSection))
    (hnd : (l.map Prod.fst).Nodup) (cat : String) (sec : MarketSection)
    (hmem : (cat, sec) ∈ l) : l.lookup cat = some sec := by
  induction l with
  | nil => simp at hmem
  | cons p rest ih =>
    rcases p with ⟨k, v⟩
    simp only [List.map_cons, List.nodup_cons] at hnd
    rcases List.mem_cons.1 hmem with heq | hmem2
    · obtain ⟨rfl, rfl⟩ := Prod.mk.inj heq
      simp [List.lookup]
    · have hcat : cat ∈ rest.map Prod.fst := List.mem_map_of_mem Prod.fst hmem2
      have hne : cat ≠ k := fun he => hnd.1 (he ▸ hcat)
      simp only [List.lookup]
      rw [show (cat == k) = false from beq_eq_false_iff_ne.2 hne]
      exact ih hnd.2 hmem2

set_option maxHeartbeats 1000000 in
lemma sectionLines_has_quoteLine (info : MarketSection) (name : String) (q : Quote)
    (hq : (name, q) ∈ info.data) : quoteLine name q ∈ sectionLines info := by
  have hne : info.data.isEmpty = false := by
    cases hd : info.data
    · rw [hd] at hq
      exact absurd hq (List.not_mem_nil _)
    · simp [hd]
  unfold sectionLines
  rw [if_neg (by rw [hne]; simp)]
  exact List.mem_append_right _ (List.mem_map_of_mem _ hq)

lemma formatMessageLines_has_quoteLine (md : List (String × MarketSection))
    (ai dateStr : String) (hkeys : md.map Prod.fst = ["japan", "us", "fx"])
    (cat : String) (sec : MarketSection) (hsec : (cat, sec) ∈ md)
    (name : String) (q : Quote) (hq : (name, q) ∈ sec.data) :
    quoteLine name q ∈ formatMessageLines md ai dateStr := by
  have hnd : (md.map Prod.fst).Nodup := by
    rw [hkeys]
    decide
  have hlook : md.lookup cat = some sec := lookup_of_mem_nodupkeys md hnd cat sec hsec
  have hcat : cat ∈ ["japan", "us", "fx"] := by
    rw [← hkeys]
    exact List.mem_map_of_mem Prod.fst hsec
  unfold formatMessageLines
  refine List.mem_append_left _ (List.mem_append_right _ ?_)
  refine List.mem_flatten.2 ⟨sectionLines sec, ?_, sectionLines_has_quoteLine sec name q hq⟩
  have he : (fun c => match md.lookup c with
      | none => []
      | some info => sectionLines info) cat = sectionLines sec := by
    show (match md.lookup cat with
      | none => []
      | some info => sectionLines info) = sectionLines sec
    rw [hlook]
  exact he ▸ List.mem_map_of_mem _ hcat

lemma formatMessageLines_has_ai (md : List (String × MarketSection))
    (ai dateStr : String) : ai ∈ formatMessageLines md ai dateStr := by
  unfold formatMessageLines
  refine List.mem_append_right _ ?_
  simp

lemma joinLines_contains_of_mem (s : String) (ls : List String) (h : s ∈ ls) :
    s.data <:+: (joinLines ls).data := by
  induction ls with
  | nil => simp at h
  | cons l rest ih =>
    cases rest with
    | nil =>
      rw [List.mem_singleton.1 h]
      exact List.infix_refl _
    | cons l2 rest2 =>
      rcases List.mem_cons.1 h with rfl | h2
      · simp only [joinLines, String.data_append]
        exact List.IsPrefix.isInfix
          ((List.prefix_append _ _).trans (List.prefix_append _ _))
      · have hi := ih h2
        simp only [joinLines, String.data_append]
        exact hi.trans (List.IsSuffix.isInfix (List.suffix_append _ _))

end StockBot

namespace StockBot

lemma symbolQuote_none_iff (fetch : String → ℕ → FetchResult) (sym name : String) :
    symbolQuote fetch sym name = none ↔ get_stock_data (fetch sym) = none := by
  unfold symbolQuote
  cases hg : get_stock_data (fetch sym) with
  | none => simp
  | some d => simp [getStockData_verified _ _ hg]

lemma totalItems_zero_iff (fetch : String → ℕ → FetchResult) :
    totalItems (fetch_all_market_data fetch) = 0 ↔
    ∀ cat cfg, (cat, cfg) ∈ MARKET_DATA → ∀ sym name, (sym, name) ∈ cfg.symbols →
      get_stock_data (fetch sym) = none := by
  unfold totalItems fetch_all_market_data
  rw [List.map_map, List.sum_eq_zero_iff]
  constructor
  · intro h cat cfg hmem sym name hsym
    have h2 := h _ (List.mem_map_of_mem _ hmem)
    simp only [Function.comp_apply, List.length_eq_zero, List.filterMap_eq_nil] at h2
    exact (symbolQuote_none_iff fetch sym name).1 (h2 (sym, name) hsym)
  · intro h x hx
    rcases List.mem_map.1 hx with ⟨p, hp, rfl⟩
    simp only [Function.comp_apply, List.length_eq_zero, List.filterMap_eq_nil]
    intro a ha
    exact (symbolQuote_none_iff fetch a.1 a.2).2 (h p.1 p.2 hp a.1 a.2 ha)

/-! ### Claim C4: partial results never abort the run -/

/-- Claim C4: every successfully fetched quote appears in the result of
fetch_all_market_data whatever the other symbols do, the run proceeds to
commentary and publish as soon as the total quote count is nonzero, and
that count is zero exactly when every configured symbol failed. -/
theorem fetch_all_partial_results (fetch : String → ℕ → FetchResult) :
    (∀ cat cfg, (cat, cfg) ∈ MARKET_DATA → ∀ sym name q, (sym, name) ∈ cfg.symbols →
       get_stock_data (fetch sym) = some q →
       ∃ sec, (cat, sec) ∈ fetch_all_market_data fetch ∧ (name, q) ∈ sec.data) ∧
    (∀ (env : Env) (aiR : Except Unit String) (dateStr : String) (sendOk : Bool),
       env.isWeekday = true → env.webhook ≠ none → env.openaiKey ≠ none →
       totalItems (fetch_all_market_data fetch) ≠ 0 →
       (main env fetch aiR dateStr sendOk).generatedAnalysis = true ∧
       (main env fetch aiR dateStr sendOk).attemptedPublish = true) ∧
    (totalItems (fetch_all_market_data fetch) = 0 ↔
       ∀ cat cfg, (cat, cfg) ∈ MARKET_DATA → ∀ sym name, (sym, name) ∈ cfg.symbols →
         get_stock_data (fetch sym) = none) := by
  refine ⟨?_, ?_, totalItems_zero_iff fetch⟩
  · intro cat cfg hmem sym name q hsym hq
    refine ⟨_, List.mem_map_of_mem _ hmem, ?_⟩
    refine List.mem_filterMap.2 ⟨(sym, name), hsym, ?_⟩
    show symbolQuote fetch sym name = some (name, q)
    simp [symbolQuote, hq, getStockData_verified _ _ hq]
  · intro env aiR dateStr sendOk hw hwh hok htot
    simp only [main]
    rw [if_neg (by simp [hw]),
      if_neg (by simp only [Option.isNone_iff_eq_none]; exact hwh),
      if_neg (by simp only [Option.isNone_iff_eq_none]; exact hok),
      if_neg htot]
    exact ⟨rfl, rfl⟩

/-- Claim C4, witness: with every symbol succeeding on the sample history,
the Nikkei quote appears in the japan section. -/
theorem fetch_all_partial_witness :
    ∃ sec, ("japan", sec) ∈ fetch_all_market_data (fun _ => sampleFetch) ∧
      ("日経平均", (⟨102, 100, 2, 2, 1, true⟩ : Quote)) ∈ sec.data := by
  have hq : get_stock_data sampleFetch = some ⟨102, 100, 2, 2, 1, true⟩ := by
    unfold sampleFetch sampleHist get_stock_data getStockDataGo attemptQuote
    norm_num
  exact (fetch_all_partial_results (fun _ => sampleFetch)).1 "japan"
    { title := "日本市場", emoji := "🇯🇵",
      symbols := [("^N225", "日経平均"), ("1306.T", "TOPIX")] }
    (by decide) "^N225" "日経平均" _ (by decide) hq

/-! ### Claim C5: exit behavior -/

/-- Claim C5: exit code 0 on a weekend no-op (with no network stage
reached) and on successful publish; exit code 1 when an environment
variable is missing (before any fetch), when zero quotes were fetched
(with neither commentary nor publish attempted), and when the publish
fails. -/
theorem main_exit_spec (env : Env) (fetch : String → ℕ → FetchResult)
    (aiR : Except Unit String) (dateStr : String) (sendOk : Bool) :
    (env.isWeekday = false →
       main env fetch aiR dateStr sendOk =
         { exitCode := 0, fetchedMarketData := false, generatedAnalysis := false,
           attemptedPublish := false, message := none }) ∧
    (env.isWeekday = true → (env.webhook = none ∨ env.openaiKey = none) →
       (main env fetch aiR dateStr sendOk).exitCode = 1 ∧
       (main env fetch aiR dateStr sendOk).fetchedMarketData = false ∧
       (main env fetch aiR dateStr sendOk).attemptedPublish = false) ∧
    (env.isWeekday = true → env.webhook ≠ none → env.openaiKey ≠ none →
       totalItems (fetch_all_market_data fetch) = 0 →
       (main env fetch aiR dateStr sendOk).exitCode = 1 ∧
       (main env fetch aiR dateStr sendOk).generatedAnalysis = false ∧
       (main env fetch aiR dateStr sendOk).attemptedPublish = false) ∧
    (env.isWeekday = true → env.webhook ≠ none → env.openaiKey ≠ none →
       totalItems (fetch_all_market_data fetch) ≠ 0 → sendOk = true →
       (main env fetch aiR dateStr sendOk).exitCode = 0) ∧
    (env.isWeekday = true → env.webhook ≠ none → env.openaiKey ≠ none →
       totalItems (fetch_all_market_data fetch) ≠ 0 → sendOk = false →
       (main env fetch aiR dateStr sendOk).exitCode = 1) := by
  refine ⟨fun hw => ?_, fun hw hmiss => ?_, fun hw hwh hok htot => ?_,
    fun hw hwh hok htot hs => ?_, fun hw hwh hok htot hs => ?_⟩
  · simp only [main]
    rw [if_pos hw]
  · simp only [main]
    rw [if_neg (by simp [hw])]
    rcases hmiss with hm | hm
    · rw [if_pos (by simp [hm])]
      exact ⟨rfl, rfl, rfl⟩
    · by_cases hwn : env.webhook = none
      · rw [if_pos (by simp [hwn])]
        exact ⟨rfl, rfl, rfl⟩
      · rw [if_neg (by simp only [Option.isNone_iff_eq_none]; exact hwn),
          if_pos (by simp [hm])]
        exact ⟨rfl, rfl, rfl⟩
  · simp only [main]
    rw [if_neg (by simp [hw]),
      if_neg (by simp only [Option.isNone_iff_eq_none]; exact hwh),
      if_neg (by simp only [Option.isNone_iff_eq_none]; exact hok),
      if_pos htot]
    exact ⟨rfl, rfl, rfl⟩
  · simp only [main]
    rw [if_neg (by simp [hw]),
      if_neg (by simp only [Option.isNone_iff_eq_none]; exact hwh),
      if_neg (by simp only [Option.isNone_iff_eq_none]; exact hok),
      if_neg htot]
    simp [hs]
  · simp only [main]
    rw [if_neg (by simp [hw]),
      if_neg (by simp only [Option.isNone_iff_eq_none]; exact hwh),
      if_neg (by simp only [Option.isNone_iff_eq_none]; exact hok),
      if_neg htot]
    simp [hs]

/-- Claim C5, witness: a weekend run exits 0 without fetching; a weekday
run with configuration present but no data exits 1 without publishing. -/
theorem main_exit_witness :
    (main ⟨false, none, none⟩ (fun _ _ => FetchResult.err)
       (Except.error ()) "d" true).exitCode = 0 ∧
    (main ⟨false, none, none⟩ (fun _ _ => FetchResult.err)
       (Except.error ()) "d" true).fetchedMarketData = false ∧
    (main ⟨true, some "w", some "k"⟩ (fun _ _ => FetchResult.err)
       (Except.error ()) "d" true).exitCode = 1 := by
  have h1 := (main_exit_spec ⟨false, none, none⟩ (fun _ _ => FetchResult.err)
    (Except.error ()) "d" true).1 rfl
  have h2 := (main_exit_spec ⟨true, some "w", some "k"⟩ (fun _ _ => FetchResult.err)
    (Except.error ()) "d" true).2.2.1 rfl (by simp) (by simp) rfl
  exact ⟨by rw [h1], by rw [h1], h2.1⟩

/-! ### Claim C6: commentary failure is never fatal -/

/-- Claim C6: a failed commentary call returns the fixed fallback sentence
and the run continues: with a weekday, configuration present and at least
one quote, the message is still assembled, contains every fetched quote
line and the fallback sentence, and is handed to the publisher. -/
theorem commentary_fallback_spec (env : Env) (fetch : String → ℕ → FetchResult)
    (dateStr : String) (sendOk : Bool) (e : Unit) :
    generate_ai_analysis (Except.error e) = "本日の分析を生成できませんでした。" ∧
    (env.isWeekday = true → env.webhook ≠ none → env.openaiKey ≠ none →
       totalItems (fetch_all_market_data fetch) ≠ 0 →
       (main env fetch (Except.error e) dateStr sendOk).attemptedPublish = true ∧
       ∃ msg, (main env fetch (Except.error e) dateStr sendOk).message = some msg ∧
         "本日の分析を生成できませんでした。".data <:+: msg.data ∧
         ∀ cat sec name q, (cat, sec) ∈ fetch_all_market_data fetch →
           (name, q) ∈ sec.data → (quoteLine name q).data <:+: msg.data) := by
  refine ⟨rfl, fun hw hwh hok htot => ?_⟩
  have hmain : main env fetch (Except.error e) dateStr sendOk =
      { exitCode := if sendOk then 0 else 1, fetchedMarketData := true,
        generatedAnalysis := true, attemptedPublish := true,
        message := some (format_message (fetch_all_market_data fetch)
          (generate_ai_analysis (Except.error e)) dateStr) } := by
    simp only [main]
    rw [if_neg (by simp [hw]),
      if_neg (by simp only [Option.isNone_iff_eq_none]; exact hwh),
      if_neg (by simp only [Option.isNone_iff_eq_none]; exact hok),
      if_neg htot]
  rw [hmain]
  refine ⟨rfl, _, rfl, ?_, ?_⟩
  · exact joinLines_contains_of_mem _ _
      (formatMessageLines_has_ai (fetch_all_market_data fetch)
        (generate_ai_analysis (Except.error e)) dateStr)
  · intro cat sec name q hsec hq
    exact joinLines_contains_of_mem _ _
      (formatMessageLines_has_quoteLine (fetch_all_market_data fetch)
        (generate_ai_analysis (Except.error e)) dateStr rfl cat sec hsec name q hq)

/-- Claim C6, witness: with every symbol succeeding and the commentary
failing, the run still reaches the publisher. -/
theorem commentary_fallback_witness :
    generate_ai_analysis (Except.error ()) = "本日の分析を生成できませんでした。" ∧
    (main ⟨true, some "w", some "k"⟩ (fun _ => sampleFetch)
       (Except.error ()) "d" true).attemptedPublish = true := by
  have hq : get_stock_data sampleFetch = some ⟨102, 100, 2, 2, 1, true⟩ := by
    unfold sampleFetch sampleHist get_stock_data getStockDataGo attemptQuote
    norm_num
  have h := commentary_fallback_spec ⟨true, some "w", some "k"⟩ (fun _ => sampleFetch)
    "d" true ()
  refine ⟨h.1, ?_⟩
  have h2 := h.2 rfl (by simp) (by simp)
    (by simp [totalItems, fetch_all_market_data, MARKET_DATA, symbolQuote, hq])
  exact h2.1

end StockBot
